import Mathlib

/-!
# Verification of the lira markup-builder core

A shallow embedding of `src/core.rs` (and the `html` constructor of
`src/html5.rs`) at the byte level.  Rust strings are modelled as lists of
bytes (`List Nat`, each element a byte value), `Vec<u8>` buffers likewise.
The type-level lifecycle state (`Open`/`Content`/`Void`) becomes an index of
the `Node` structure, and the `CanAddAttributes` marker trait becomes a Prop
class over that index.  The per-element `Tag` phantom parameter carries no
data and only gates which methods exist at compile time; it is dropped here
(the `tag` byte field of the node is kept, as in the source).  Buffer
capacity reservations (`Vec::with_capacity`, `reserve`) do not affect the
byte contents and are not modelled.
-/

namespace Lira

/-! ## Escaper (`write_escaped`, core.rs lines 301-334) -/

/-- The byte set scanned for by `write_escaped`'s fast path
(`matches!(b, b'&' | b'<' | b'>' | b'"' | b'\x27')`). -/
def isSpecialByte (b : Nat) : Bool :=
  b == 38 || b == 60 || b == 62 || b == 34 || b == 39

/-- The `match` inside `write_escaped`'s slow loop: the entity replacement
for an escapable byte, `none` otherwise. -/
def escEntity (b : Nat) : Option (List Nat) :=
  if b = 38 then some [38, 97, 109, 112, 59]
  else if b = 60 then some [38, 108, 116, 59]
  else if b = 62 then some [38, 103, 116, 59]
  else if b = 34 then some [38, 113, 117, 111, 116, 59]
  else if b = 39 then some [38, 35, 51, 57, 59]
  else none

/-- The slow loop of `write_escaped`.  The Rust code keeps an index `start`
into the source and flushes the untouched run `bytes[start..i]` whenever an
escapable byte is met, then flushes the trailing run; here that pending
untouched run is carried explicitly. -/
def escLoop (dest pending : List Nat) : List Nat → List Nat
  | [] => dest ++ pending
  | b :: rest =>
    match escEntity b with
    | some ent => escLoop (dest ++ pending ++ ent) [] rest
    | none => escLoop dest (pending ++ [b]) rest

/-- `write_escaped(dest, src)`: fast path appends `src` verbatim when no
escapable byte occurs, otherwise runs the substitution loop. -/
def write_escaped (dest src : List Nat) : List Nat :=
  if src.any isSpecialByte then escLoop dest [] src else dest ++ src

/-! ## Name normalizer (`write_normalized`, core.rs lines 281-299) -/

/-- The per-byte `match` of `write_normalized`'s slow loop:
`b'A'..=b'Z' => b + 32, b'_' => b'-', _ => b`. -/
def normalizeByte (b : Nat) : Nat :=
  if 65 ≤ b ∧ b ≤ 90 then b + 32
  else if b = 95 then 45
  else b

/-- `write_normalized(dest, k)`: fast path appends `k` verbatim when it
holds no underscore and no ASCII uppercase byte, otherwise maps each byte
through the normalization table. -/
def write_normalized (dest k : List Nat) : List Nat :=
  if k.any (fun b => b == 95 || (65 ≤ b && b ≤ 90)) then
    dest ++ k.map normalizeByte
  else dest ++ k

/-! ## Spec-side counterparts

The specification (§4.7) describes escaping as a pointwise substitution —
each of the five reserved characters replaced by its entity, every other
character passed through — and normalization as a pointwise map.  These
definitions follow the spec's words and are compared with the source
functions above by the refinement lemmas below. -/

/-- Spec-side substitution table: `&`→`&amp;`, `<`→`&lt;`, `>`→`&gt;`,
`"`→`&quot;`, `'`→`&#39;`, anything else passes through. -/
def escapeByteSpec (b : Nat) : List Nat :=
  if b = 38 then [38, 97, 109, 112, 59]
  else if b = 60 then [38, 108, 116, 59]
  else if b = 62 then [38, 103, 116, 59]
  else if b = 34 then [38, 113, 117, 111, 116, 59]
  else if b = 39 then [38, 35, 51, 57, 59]
  else [b]

/-- Spec-side escaping: pointwise substitution over the whole string. -/
def escapeSpec (s : List Nat) : List Nat := s.flatMap escapeByteSpec

/-- Spec-side normalization: pointwise byte map over the whole string. -/
def normalizeSpec (s : List Nat) : List Nat := s.map normalizeByte

/-! ## Refinement lemmas: the source functions equal their spec forms -/

theorem escEntity_getD (b : Nat) : (escEntity b).getD [b] = escapeByteSpec b := by
  unfold escEntity escapeByteSpec
  split_ifs <;> rfl

theorem escLoop_eq (l : List Nat) :
    ∀ dest pending, escLoop dest pending l = dest ++ pending ++ escapeSpec l := by
  induction l with
  | nil => intro dest pending; simp [escLoop, escapeSpec]
  | cons b rest ih =>
    intro dest pending
    have hb := escEntity_getD b
    cases h : escEntity b with
    | some ent =>
      rw [h] at hb
      simp only [escLoop, h, ih, escapeSpec, List.flatMap_cons, ← hb]
      simp [List.append_assoc, escapeSpec]
    | none =>
      rw [h] at hb
      simp only [escLoop, h, ih, escapeSpec, List.flatMap_cons, ← hb]
      simp [List.append_assoc, escapeSpec]

theorem escapeByteSpec_of_not_special {b : Nat} (h : isSpecialByte b = false) :
    escapeByteSpec b = [b] := by
  unfold isSpecialByte at h
  unfold escapeByteSpec
  split_ifs with h1 h2 h3 h4 h5 <;> simp_all

theorem escapeSpec_id_of_no_special {s : List Nat}
    (h : ∀ b ∈ s, isSpecialByte b = false) : escapeSpec s = s := by
  induction s with
  | nil => rfl
  | cons b rest ih =>
    have hb := escapeByteSpec_of_not_special (h b (by simp))
    simp only [escapeSpec, List.flatMap_cons, hb]
    simp only [escapeSpec] at ih
    rw [ih fun x hx => h x (by simp [hx])]
    rfl

/-- Refinement: `write_escaped` appends exactly the spec-side pointwise
escaping of the source string, in both the fast and the slow path. -/
theorem write_escaped_eq (dest src : List Nat) :
    write_escaped dest src = dest ++ escapeSpec src := by
  unfold write_escaped
  split_ifs with h
  · rw [escLoop_eq]; simp
  · rw [escapeSpec_id_of_no_special]
    intro b hb
    by_contra hc
    simp only [Bool.not_eq_false] at hc
    exact h (List.any_eq_true.mpr ⟨b, hb, hc⟩)

theorem normalizeByte_id_of_plain {b : Nat}
    (h : (b == 95 || (65 ≤ b && b ≤ 90)) = false) : normalizeByte b = b := by
  unfold normalizeByte
  simp only [Bool.or_eq_false_iff, beq_eq_false_iff_ne, Bool.and_eq_false_iff] at h
  split_ifs with h1 h2
  · rcases h.2 with h' | h' <;> simp [decide_eq_false_iff_not] at h' <;> omega
  · exact absurd h2 h.1
  · rfl

/-- Refinement: `write_normalized` appends exactly the spec-side pointwise
normalization of the name, in both the fast and the slow path. -/
theorem write_normalized_eq (dest k : List Nat) :
    write_normalized dest k = dest ++ normalizeSpec k := by
  unfold write_normalized normalizeSpec
  split_ifs with h
  · rfl
  · congr 1
    symm
    have h' : ∀ b ∈ k, (b == 95 || (65 ≤ b && b ≤ 90)) = false := by
      intro b hb
      by_contra hc
      simp only [Bool.not_eq_false] at hc
      exact h (List.any_eq_true.mpr ⟨b, hb, hc⟩)
    calc k.map normalizeByte
        = k.map id := List.map_congr_left fun b hb => normalizeByte_id_of_plain (h' b hb)
      _ = k := List.map_id k

/-! ## The node engine (core.rs lines 1-279)

`Node<Tag, State>` becomes a structure indexed by the lifecycle state.
The `Renderable` trait is implemented in the source exactly for the three
node states; its two methods become the per-state `render_into_*` /
`render_*` functions plus state-dispatching wrappers.  `render()` in Rust
additionally converts the byte buffer to a `String` (possibly panicking on
invalid UTF-8); that conversion is modelled separately by
`string_from_utf8` below. -/

/-- The three lifecycle states (`Open`, `Content`, `Void` in core.rs). -/
inductive NState : Type
  | Open
  | Content
  | Void
deriving DecidableEq

/-- Marker trait `CanAddAttributes`, implemented for `Open` and `Void`. -/
class CanAddAttributes (s : NState) : Prop where

instance : CanAddAttributes NState.Open := ⟨⟩

instance : CanAddAttributes NState.Void := ⟨⟩

/-- `Node<Tag, State>`: the element's immutable tag name and the
accumulated byte buffer. -/
structure Node (s : NState) : Type where
  tag : List Nat
  buf : List Nat
deriving DecidableEq

/-- `Node::with_buffer(tag, buf)`: pushes `<`, then the tag bytes, onto the
given buffer. -/
def Node.with_buffer (tag buf : List Nat) : Node .Open :=
  ⟨tag, buf ++ [60] ++ tag⟩

/-- `Node::new(tag)`: a fresh buffer (capacity only, no content), then
`with_buffer`. -/
def Node.new (tag : List Nat) : Node .Open :=
  Node.with_buffer tag []

/-- `Node::new_self_closing(tag)`: fresh buffer, `<`, tag bytes, Void state. -/
def Node.new_self_closing (tag : List Nat) : Node .Void :=
  ⟨tag, [60] ++ tag⟩

/-- `close()`: appends `>`, moving Open → Content. -/
def Node.close (n : Node .Open) : Node .Content :=
  ⟨n.tag, n.buf ++ [62]⟩

/-- `attr(k, v)`: space, normalized name, `="`, escaped value, `"`. -/
def Node.attr {s : NState} [CanAddAttributes s] (n : Node s) (k v : List Nat) :
    Node s :=
  ⟨n.tag, write_escaped (write_normalized (n.buf ++ [32]) k ++ [61, 34]) v ++ [34]⟩

/-- `flag(k)`: space, normalized name. -/
def Node.flag {s : NState} [CanAddAttributes s] (n : Node s) (k : List Nat) :
    Node s :=
  ⟨n.tag, write_normalized (n.buf ++ [32]) k⟩

/-- `map(fun)`: applies an arbitrary caller-supplied transformation. -/
def Node.map {s : NState} (n : Node s) (fn : Node s → Node s) : Node s :=
  fn n

/-- `map_when(condition, fun)`. -/
def Node.map_when {s : NState} (n : Node s) (condition : Bool)
    (fn : Node s → Node s) : Node s :=
  if condition then fn n else n

/-- `text(t)` on a Content node: escapes and appends. -/
def Node.text (n : Node .Content) (t : List Nat) : Node .Content :=
  ⟨n.tag, write_escaped n.buf t⟩

/-- `raw(t)` on a Content node: appends verbatim. -/
def Node.raw (n : Node .Content) (t : List Nat) : Node .Content :=
  ⟨n.tag, n.buf ++ t⟩

/-- `Renderable::render_into` for `Node<Tag, Content>`: appends this node's
buffer, then `</`, the tag, `>`. -/
def Node.render_into_c (n : Node .Content) (buf : List Nat) : List Nat :=
  buf ++ n.buf ++ [60, 47] ++ n.tag ++ [62]

/-- `Renderable::render` for `Node<Tag, Content>` (the final byte buffer;
the `String` materialization is modelled by `string_from_utf8`). -/
def Node.render_c (n : Node .Content) : List Nat :=
  n.buf ++ [60, 47] ++ n.tag ++ [62]

/-- `Renderable::render_into` for `Node<Tag, Void>`: appends the buffer and
the self-closing suffix `\x20/>`. -/
def Node.render_into_v (n : Node .Void) (buf : List Nat) : List Nat :=
  buf ++ n.buf ++ [32, 47, 62]

/-- `Renderable::render` for `Node<Tag, Void>` (final byte buffer). -/
def Node.render_v (n : Node .Void) : List Nat :=
  n.buf ++ [32, 47, 62]

/-- `Renderable::render_into` for `Node<Tag, Open>`: closes, delegates. -/
def Node.render_into_o (n : Node .Open) (buf : List Nat) : List Nat :=
  n.close.render_into_c buf

/-- `Renderable::render` for `Node<Tag, Open>`: closes, delegates. -/
def Node.render_o (n : Node .Open) : List Nat :=
  n.close.render_c

/-- State-dispatching view of `Renderable::render_into` (the source
implements the trait once per state). -/
def Node.render_into {s : NState} (n : Node s) (buf : List Nat) : List Nat :=
  match s, n with
  | .Open, n => n.render_into_o buf
  | .Content, n => n.render_into_c buf
  | .Void, n => n.render_into_v buf

/-- State-dispatching view of `Renderable::render` (final byte buffer). -/
def Node.renderB {s : NState} (n : Node s) : List Nat :=
  match s, n with
  | .Open, n => n.render_o
  | .Content, n => n.render_c
  | .Void, n => n.render_v

/-- `child(c)` on a Content node: the child renders itself into the
parent's buffer.  `Renderable` is implemented exactly for the three node
states, so the child is a node in an arbitrary state. -/
def Node.child {s : NState} (n : Node .Content) (c : Node s) : Node .Content :=
  ⟨n.tag, c.render_into n.buf⟩

/-- `children(iter, fun)` on a Content node: iterates the sequence in
order, maps each item, renders each result into the buffer. -/
def Node.children {α : Type} {s : NState} (n : Node .Content) (l : List α)
    (fn : α → Node s) : Node .Content :=
  match l with
  | [] => n
  | x :: xs => Node.children ⟨n.tag, (fn x).render_into n.buf⟩ xs fn

/-- `child_when(condition, f)` on a Content node: the producer is invoked
and its result rendered only when the condition holds. -/
def Node.child_when (n : Node .Content) (condition : Bool)
    (f : Unit → Node .Content) : Node .Content :=
  if condition then n.child (f ()) else n

/-- `child` on an Open node: implicit close, then delegate. -/
def Node.childO {s : NState} (n : Node .Open) (c : Node s) : Node .Content :=
  n.close.child c

/-- `children` on an Open node: implicit close, then delegate. -/
def Node.childrenO {α : Type} {s : NState} (n : Node .Open) (l : List α)
    (fn : α → Node s) : Node .Content :=
  n.close.children l fn

/-- `child_when` on an Open node: implicit close, then delegate. -/
def Node.child_whenO (n : Node .Open) (condition : Bool)
    (f : Unit → Node .Content) : Node .Content :=
  n.close.child_when condition f

/-- `text` on an Open node: implicit close, then delegate. -/
def Node.textO (n : Node .Open) (t : List Nat) : Node .Content :=
  n.close.text t

/-- `raw` on an Open node: implicit close, then delegate. -/
def Node.rawO (n : Node .Open) (t : List Nat) : Node .Content :=
  n.close.raw t

/-! ## The one `with_buffer` caller with a nonempty prefix
(`html()`, html5.rs lines 276-281) -/

/-- The bytes of `"<!DOCTYPE html>"`. -/
def doctypeBytes : List Nat :=
  [60, 33, 68, 79, 67, 84, 89, 80, 69, 32, 104, 116, 109, 108, 62]

/-- The bytes of `"html"`. -/
def htmlTag : List Nat := [104, 116, 109, 108]

/-- `html()`: writes the doctype declaration into a fresh buffer, then
builds the `html` element on top of it via `with_buffer`. -/
def html : Node .Open :=
  Node.with_buffer htmlTag doctypeBytes

/-! ## Trees built through the public contract

A build script records one chained construction: a list of attribute/flag
calls while the node is Open or Void, then (for non-void elements) a list
of content calls — `text`, `raw`, or `child` of a recursively built
element.  `children` and `child_when` reduce to sequences of the same
content calls and are treated separately (claim C8).  The builders below
apply the *source* operations literally; `fragBytes` is the closed form
proved equal to them. -/

/-- One attribute-phase call: `attr(k, v)` or `flag(k)`. -/
inductive AttrOp : Type
  | attr (k v : List Nat)
  | flag (k : List Nat)

/-- Apply one attribute-phase call to an Open or Void node. -/
def Node.applyAttr {s : NState} [CanAddAttributes s] (n : Node s) :
    AttrOp → Node s
  | .attr k v => n.attr k v
  | .flag k => n.flag k

/-- Apply a chain of attribute-phase calls in order. -/
def Node.applyAttrs {s : NState} [CanAddAttributes s] (n : Node s) :
    List AttrOp → Node s
  | [] => n
  | a :: rest => (n.applyAttr a).applyAttrs rest

mutual

/-- One content-phase call on a Content node, or a whole child element. -/
inductive Frag : Type
  | text (s : List Nat)
  | raw (s : List Nat)
  | node (tag : List Nat) (attrs : List AttrOp) (kids : Frags)
  | vnode (tag : List Nat) (attrs : List AttrOp)

/-- A chain of content-phase calls. -/
inductive Frags : Type
  | nil
  | cons (f : Frag) (fs : Frags)

end

/-- `new(tag)` followed by the attribute chain. -/
def buildOpen (tag : List Nat) (attrs : List AttrOp) : Node .Open :=
  (Node.new tag).applyAttrs attrs

/-- `new_self_closing(tag)` followed by the attribute chain. -/
def buildVoid (tag : List Nat) (attrs : List AttrOp) : Node .Void :=
  (Node.new_self_closing tag).applyAttrs attrs

mutual

/-- Apply one content-phase call, invoking the source operations: `text`,
`raw`, or `child` of a recursively built subelement. -/
def applyFrag (n : Node .Content) : Frag → Node .Content
  | .text s => n.text s
  | .raw s => n.raw s
  | .node tag attrs kids =>
      n.child (applyFrags ((buildOpen tag attrs).close) kids)
  | .vnode tag attrs => n.child (buildVoid tag attrs)

/-- Apply a chain of content-phase calls in order. -/
def applyFrags (n : Node .Content) : Frags → Node .Content
  | .nil => n
  | .cons f fs => applyFrags (applyFrag n f) fs

end

/-- A complete non-void element built through the public contract:
constructor, attribute chain, `close`, content chain. -/
def buildElem (tag : List Nat) (attrs : List AttrOp) (kids : Frags) :
    Node .Content :=
  applyFrags ((buildOpen tag attrs).close) kids

/-! ## Closed forms of the built buffers -/

/-- The bytes one attribute-phase call appends. -/
def attrBytes : AttrOp → List Nat
  | .attr k v => [32] ++ normalizeSpec k ++ [61, 34] ++ escapeSpec v ++ [34]
  | .flag k => [32] ++ normalizeSpec k

/-- The bytes an attribute chain appends. -/
def attrsBytes : List AttrOp → List Nat
  | [] => []
  | a :: rest => attrBytes a ++ attrsBytes rest

mutual

/-- The bytes one content-phase call appends (for a child element: its
full rendered text). -/
def fragBytes : Frag → List Nat
  | .text s => escapeSpec s
  | .raw s => s
  | .node tag attrs kids =>
      [60] ++ tag ++ attrsBytes attrs ++ [62] ++ fragsBytes kids ++
        [60, 47] ++ tag ++ [62]
  | .vnode tag attrs => [60] ++ tag ++ attrsBytes attrs ++ [32, 47, 62]

/-- The bytes a content chain appends. -/
def fragsBytes : Frags → List Nat
  | .nil => []
  | .cons f fs => fragBytes f ++ fragsBytes fs

end

theorem applyAttr_eq {s : NState} [CanAddAttributes s] (n : Node s)
    (a : AttrOp) : n.applyAttr a = ⟨n.tag, n.buf ++ attrBytes a⟩ := by
  cases a with
  | attr k v =>
    simp [Node.applyAttr, Node.attr, attrBytes, write_escaped_eq,
      write_normalized_eq]
  | flag k =>
    simp [Node.applyAttr, Node.flag, attrBytes, write_normalized_eq]

theorem applyAttrs_eq {s : NState} [CanAddAttributes s] (attrs : List AttrOp) :
    ∀ n : Node s, n.applyAttrs attrs = ⟨n.tag, n.buf ++ attrsBytes attrs⟩ := by
  induction attrs with
  | nil => intro n; simp [Node.applyAttrs, attrsBytes]
  | cons a rest ih =>
    intro n
    simp only [Node.applyAttrs, applyAttr_eq, ih, attrsBytes,
      List.append_assoc]

theorem buildOpen_eq (tag : List Nat) (attrs : List AttrOp) :
    buildOpen tag attrs = ⟨tag, [60] ++ tag ++ attrsBytes attrs⟩ := by
  simp [buildOpen, Node.new, Node.with_buffer, applyAttrs_eq]

theorem buildVoid_eq (tag : List Nat) (attrs : List AttrOp) :
    buildVoid tag attrs = ⟨tag, [60] ++ tag ++ attrsBytes attrs⟩ := by
  simp [buildVoid, Node.new_self_closing, applyAttrs_eq]

mutual

theorem applyFrag_eq (n : Node .Content) (f : Frag) :
    applyFrag n f = ⟨n.tag, n.buf ++ fragBytes f⟩ := by
  cases f with
  | text s =>
    simp [applyFrag, Node.text, fragBytes, write_escaped_eq]
  | raw s =>
    simp [applyFrag, Node.raw, fragBytes]
  | node tag attrs kids =>
    have h := applyFrags_eq ((buildOpen tag attrs).close) kids
    simp only [buildOpen_eq, Node.close] at h
    simp only [applyFrag, Node.child, Node.render_into, Node.render_into_c,
      buildOpen_eq, Node.close, h, fragBytes]
    simp [List.append_assoc]
  | vnode tag attrs =>
    simp only [applyFrag, Node.child, Node.render_into, Node.render_into_v,
      buildVoid_eq, fragBytes]
    simp [List.append_assoc]

theorem applyFrags_eq (n : Node .Content) (fs : Frags) :
    applyFrags n fs = ⟨n.tag, n.buf ++ fragsBytes fs⟩ := by
  cases fs with
  | nil => simp [applyFrags, fragsBytes]
  | cons f fs' =>
    simp only [applyFrags]
    rw [applyFrag_eq n f, applyFrags_eq ⟨n.tag, n.buf ++ fragBytes f⟩ fs']
    simp [fragsBytes, List.append_assoc]

end

/-- Closed form for a complete non-void build. -/
theorem buildElem_eq (tag : List Nat) (attrs : List AttrOp) (kids : Frags) :
    buildElem tag attrs kids
      = ⟨tag, [60] ++ tag ++ attrsBytes attrs ++ [62] ++ fragsBytes kids⟩ := by
  simp only [buildElem, applyFrags_eq, buildOpen_eq, Node.close,
    List.append_assoc]

/-- Rendering a complete non-void build yields exactly its `fragBytes`. -/
theorem buildElem_render (tag : List Nat) (attrs : List AttrOp) (kids : Frags) :
    (buildElem tag attrs kids).render_c = fragBytes (.node tag attrs kids) := by
  simp only [buildElem_eq, Node.render_c, fragBytes, List.append_assoc]

/-- Rendering a complete void build yields exactly its `fragBytes`. -/
theorem buildVoid_render (tag : List Nat) (attrs : List AttrOp) :
    (buildVoid tag attrs).render_v = fragBytes (.vnode tag attrs) := by
  simp only [buildVoid_eq, Node.render_v, fragBytes, List.append_assoc]

/-! ## Balanced-markup grammar

`Wf` is the spec-side formalization of "the rendered text has balanced
tags": a byte string is well formed when it is generated by the grammar
whose only productions are character data free of angle brackets,
concatenation, a non-void element — start tag, body, then exactly one
matching close tag immediately wrapping the body — and a void element —
start tag then the self-closing suffix, no close tag.  Tag names must be
nonempty and free of markup-delimiter bytes; attribute bytes inside a
start tag must be free of angle brackets. -/

/-- A usable tag name: nonempty, no `< > / " ' & \x20`. -/
def TagNameOk (tag : List Nat) : Bool :=
  !tag.isEmpty && tag.all fun b =>
    !(b == 60 || b == 62 || b == 47 || b == 34 || b == 39 || b == 38 || b == 32)

/-- Bytes legal inside a start tag: no angle brackets. -/
def InTagOk (s : List Nat) : Bool :=
  s.all fun b => !(b == 60 || b == 62)

inductive Wf : List Nat → Prop
  | text (s : List Nat) : (∀ b ∈ s, b ≠ 60 ∧ b ≠ 62) → Wf s
  | append (a b : List Nat) : Wf a → Wf b → Wf (a ++ b)
  | elem (tag attrs body : List Nat) : TagNameOk tag = true →
      InTagOk attrs = true → Wf body →
      Wf ([60] ++ tag ++ attrs ++ [62] ++ body ++ [60, 47] ++ tag ++ [62])
  | void (tag attrs : List Nat) : TagNameOk tag = true →
      InTagOk attrs = true →
      Wf ([60] ++ tag ++ attrs ++ [32, 47, 62])

/-- Attribute and flag *names* with no angle brackets (values need no
condition: they are escaped). -/
def attrOpNameOk : AttrOp → Bool
  | .attr k _ => InTagOk k
  | .flag k => InTagOk k

def attrOpsOk (l : List AttrOp) : Bool := l.all attrOpNameOk

mutual

/-- A build script is good when every tag name is usable, every
attribute/flag name is free of angle brackets, and `raw` is not used. -/
def fragOk : Frag → Bool
  | .text _ => true
  | .raw _ => false
  | .node tag attrs kids => TagNameOk tag && attrOpsOk attrs && fragsOk kids
  | .vnode tag attrs => TagNameOk tag && attrOpsOk attrs

def fragsOk : Frags → Bool
  | .nil => true
  | .cons f fs => fragOk f && fragsOk fs

end

/-! ### Escaped and normalized output stays inside the grammar -/

theorem escapeByteSpec_no_reserved {b x : Nat} (hx : x ∈ escapeByteSpec b) :
    x ≠ 60 ∧ x ≠ 62 ∧ x ≠ 34 ∧ x ≠ 39 := by
  unfold escapeByteSpec at hx
  split_ifs at hx with h1 h2 h3 h4 h5 <;> simp at hx <;> omega

theorem escapeSpec_no_reserved {s : List Nat} {x : Nat}
    (hx : x ∈ escapeSpec s) : x ≠ 60 ∧ x ≠ 62 ∧ x ≠ 34 ∧ x ≠ 39 := by
  simp only [escapeSpec, List.mem_flatMap] at hx
  obtain ⟨b, _, hb⟩ := hx
  exact escapeByteSpec_no_reserved hb

theorem normalizeByte_no_angle {b : Nat} (h60 : b ≠ 60) (h62 : b ≠ 62) :
    normalizeByte b ≠ 60 ∧ normalizeByte b ≠ 62 := by
  unfold normalizeByte
  split_ifs <;> omega

theorem normalizeSpec_inTagOk {k : List Nat} (h : InTagOk k = true) :
    InTagOk (normalizeSpec k) = true := by
  simp only [InTagOk, List.all_eq_true, Bool.not_eq_true', Bool.or_eq_false_iff,
    beq_eq_false_iff_ne] at h ⊢
  intro b hb
  simp only [normalizeSpec, List.mem_map] at hb
  obtain ⟨c, hc, rfl⟩ := hb
  exact normalizeByte_no_angle (h c hc).1 (h c hc).2

theorem escapeSpec_inTagOk (v : List Nat) : InTagOk (escapeSpec v) = true := by
  simp only [InTagOk, List.all_eq_true, Bool.not_eq_true', Bool.or_eq_false_iff,
    beq_eq_false_iff_ne]
  intro b hb
  exact ⟨(escapeSpec_no_reserved hb).1, (escapeSpec_no_reserved hb).2.1⟩

theorem inTagOk_append {a b : List Nat} (ha : InTagOk a = true)
    (hb : InTagOk b = true) : InTagOk (a ++ b) = true := by
  simp only [InTagOk, List.all_eq_true, List.mem_append] at ha hb ⊢
  rintro x (hx | hx)
  · exact ha x hx
  · exact hb x hx

theorem attrBytes_inTagOk {a : AttrOp} (h : attrOpNameOk a = true) :
    InTagOk (attrBytes a) = true := by
  cases a with
  | attr k v =>
    simp only [attrOpNameOk] at h
    simp only [attrBytes]
    refine inTagOk_append (inTagOk_append (inTagOk_append (inTagOk_append
      ?_ (normalizeSpec_inTagOk h)) ?_) (escapeSpec_inTagOk v)) ?_ <;> decide
  | flag k =>
    simp only [attrOpNameOk] at h
    simp only [attrBytes]
    exact inTagOk_append (by decide) (normalizeSpec_inTagOk h)

theorem attrsBytes_inTagOk {l : List AttrOp} (h : attrOpsOk l = true) :
    InTagOk (attrsBytes l) = true := by
  induction l with
  | nil => decide
  | cons a rest ih =>
    simp only [attrOpsOk, List.all_cons, Bool.and_eq_true] at h
    exact inTagOk_append (attrBytes_inTagOk h.1)
      (ih (by simp [attrOpsOk, h.2]))

/-! ### Good build scripts render to well-formed markup -/

mutual

theorem wf_fragBytes (f : Frag) (h : fragOk f = true) : Wf (fragBytes f) := by
  cases f with
  | text s =>
    simp only [fragBytes]
    exact Wf.text _ fun b hb =>
      ⟨(escapeSpec_no_reserved hb).1, (escapeSpec_no_reserved hb).2.1⟩
  | raw s => simp [fragOk] at h
  | node tag attrs kids =>
    simp only [fragOk, Bool.and_eq_true] at h
    simp only [fragBytes]
    exact Wf.elem tag (attrsBytes attrs) (fragsBytes kids) h.1.1
      (attrsBytes_inTagOk h.1.2) (wf_fragsBytes kids h.2)
  | vnode tag attrs =>
    simp only [fragOk, Bool.and_eq_true] at h
    simp only [fragBytes]
    exact Wf.void tag (attrsBytes attrs) h.1 (attrsBytes_inTagOk h.2)

theorem wf_fragsBytes (fs : Frags) (h : fragsOk fs = true) :
    Wf (fragsBytes fs) := by
  cases fs with
  | nil =>
    simp only [fragsBytes]
    exact Wf.text [] (by simp)
  | cons f fs' =>
    simp only [fragsOk, Bool.and_eq_true] at h
    simp only [fragsBytes]
    exact Wf.append _ _ (wf_fragBytes f h.1) (wf_fragsBytes fs' h.2)

end

/-! ### A void render under good names contains no close tag -/

theorem no_close_marker {rest : List Nat} (h60 : 60 ∉ rest)
    (hhd : ∀ r', rest ≠ 47 :: r') : ¬ ([60, 47] <:+: 60 :: rest) := by
  rintro ⟨u, t, hut⟩
  cases u with
  | nil =>
    simp only [List.nil_append, List.cons_append, List.cons.injEq] at hut
    exact hhd t hut.2.symm
  | cons x u' =>
    simp only [List.cons_append, List.cons.injEq] at hut
    apply h60
    rw [← hut.2]
    simp

theorem closeTag_not_infix {tag rest : List Nat} (h60 : 60 ∉ rest)
    (hhd : ∀ r', rest ≠ 47 :: r') :
    ¬ (([60, 47] ++ tag ++ [62]) <:+: 60 :: rest) := by
  rintro ⟨u, t, hut⟩
  apply no_close_marker h60 hhd
  exact ⟨u, tag ++ [62] ++ t, by simpa [List.append_assoc] using hut⟩

theorem tagNameOk_facts {tag : List Nat} (h : TagNameOk tag = true) :
    tag ≠ [] ∧ ∀ b ∈ tag, b ≠ 60 ∧ b ≠ 62 ∧ b ≠ 47 := by
  simp only [TagNameOk, Bool.and_eq_true, List.all_eq_true, Bool.not_eq_true',
    Bool.or_eq_false_iff, beq_eq_false_iff_ne] at h
  obtain ⟨h1, h2⟩ := h
  constructor
  · intro hnil
    subst hnil
    simp at h1
  · intro b hb
    have := h2 b hb
    tauto

theorem buildVoid_no_closeTag {tag : List Nat} {attrs : List AttrOp}
    (htag : TagNameOk tag = true) (hattrs : attrOpsOk attrs = true) :
    ¬ (([60, 47] ++ tag ++ [62]) <:+: (buildVoid tag attrs).render_v) := by
  obtain ⟨hne, hbytes⟩ := tagNameOk_facts htag
  have hattrs' := attrsBytes_inTagOk hattrs
  simp only [InTagOk, List.all_eq_true, Bool.not_eq_true', Bool.or_eq_false_iff,
    beq_eq_false_iff_ne] at hattrs'
  have hrender : (buildVoid tag attrs).render_v
      = 60 :: (tag ++ (attrsBytes attrs ++ [32, 47, 62])) := by
    simp [buildVoid_eq, Node.render_v]
  rw [hrender]
  apply closeTag_not_infix
  · intro hmem
    simp only [List.mem_append] at hmem
    rcases hmem with hmem | hmem | hmem
    · exact (hbytes 60 hmem).1 rfl
    · exact (hattrs' 60 hmem).1 rfl
    · simp at hmem
  · intro r' hr
    cases tag with
    | nil => exact hne rfl
    | cons t0 tag' =>
      simp only [List.cons_append, List.cons.injEq] at hr
      exact (hbytes t0 (by simp)).2.2 hr.1

/-! ## UTF-8 validity

`render()` ends with `String::from_utf8(self.buf).expect(..)`.  Rust input
strings (`&str`) are always valid UTF-8; here that contract is the `Utf8`
predicate on byte lists (the standard well-formed-sequence table: ASCII,
2-byte C2-DF, 3-byte E0-EF with the E0/ED restrictions, 4-byte F0-F4 with
the F0/F4 restrictions, continuations 80-BF).  `string_from_utf8` models
the `String::from_utf8` call: `some` on valid input, `none` (the panic
branch) otherwise. -/

/-- A UTF-8 continuation byte: `80..=BF`. -/
def ContByte (b : Nat) : Prop := 128 ≤ b ∧ b ≤ 191

inductive Utf8 : List Nat → Prop
  | nil : Utf8 []
  | one (b : Nat) (l : List Nat) : b < 128 → Utf8 l → Utf8 (b :: l)
  | two (b c : Nat) (l : List Nat) : 194 ≤ b → b ≤ 223 → ContByte c →
      Utf8 l → Utf8 (b :: c :: l)
  | three (b c1 c2 : Nat) (l : List Nat) : 224 ≤ b → b ≤ 239 → ContByte c1 →
      ContByte c2 → (b = 224 → 160 ≤ c1) → (b = 237 → c1 ≤ 159) → Utf8 l →
      Utf8 (b :: c1 :: c2 :: l)
  | four (b c1 c2 c3 : Nat) (l : List Nat) : 240 ≤ b → b ≤ 244 →
      ContByte c1 → ContByte c2 → ContByte c3 → (b = 240 → 144 ≤ c1) →
      (b = 244 → c1 ≤ 143) → Utf8 l → Utf8 (b :: c1 :: c2 :: c3 :: l)

def contByteB (b : Nat) : Bool := decide (128 ≤ b ∧ b ≤ 191)

mutual

/-- Executable UTF-8 validation (the check `String::from_utf8` performs):
dispatch on the lead byte, then consume the unit's continuation bytes. -/
def utf8valid : List Nat → Bool
  | [] => true
  | b :: l =>
    if b < 128 then utf8valid l
    else if 194 ≤ b ∧ b ≤ 223 then utf8tail1 l
    else if 224 ≤ b ∧ b ≤ 239 then utf8tail2 b l
    else if 240 ≤ b ∧ b ≤ 244 then utf8tail3 b l
    else false

/-- One continuation byte after a 2-byte lead. -/
def utf8tail1 : List Nat → Bool
  | c :: l => contByteB c && utf8valid l
  | [] => false

/-- Two continuation bytes after a 3-byte lead `b`. -/
def utf8tail2 (b : Nat) : List Nat → Bool
  | c1 :: c2 :: l =>
      contByteB c1 && contByteB c2 && decide (b = 224 → 160 ≤ c1) &&
        decide (b = 237 → c1 ≤ 159) && utf8valid l
  | _ => false

/-- Three continuation bytes after a 4-byte lead `b`. -/
def utf8tail3 (b : Nat) : List Nat → Bool
  | c1 :: c2 :: c3 :: l =>
      contByteB c1 && contByteB c2 && contByteB c3 &&
        decide (b = 240 → 144 ≤ c1) && decide (b = 244 → c1 ≤ 143) &&
        utf8valid l
  | _ => false

end

/-- Model of `String::from_utf8`: `some` (an `Ok` string) on valid bytes,
`none` (the `Err` that `expect` turns into a panic) otherwise. -/
def string_from_utf8 (l : List Nat) : Option (List Nat) :=
  if utf8valid l then some l else none

theorem utf8valid_of_utf8 {l : List Nat} (h : Utf8 l) : utf8valid l = true := by
  induction h with
  | nil => rfl
  | one b l hb _ ih =>
    rw [utf8valid, if_pos hb]
    exact ih
  | two b c l hb1 hb2 hc _ ih =>
    rw [utf8valid, if_neg (by omega), if_pos ⟨hb1, hb2⟩, utf8tail1]
    simp only [contByteB, Bool.and_eq_true, decide_eq_true_eq]
    exact ⟨hc, ih⟩
  | three b c1 c2 l hb1 hb2 hc1 hc2 he0 hed _ ih =>
    rw [utf8valid, if_neg (by omega), if_neg (by omega), if_pos ⟨hb1, hb2⟩,
      utf8tail2]
    simp only [contByteB, Bool.and_eq_true, decide_eq_true_eq]
    exact ⟨⟨⟨⟨hc1, hc2⟩, he0⟩, hed⟩, ih⟩
  | four b c1 c2 c3 l hb1 hb2 hc1 hc2 hc3 hf0 hf4 _ ih =>
    rw [utf8valid, if_neg (by omega), if_neg (by omega), if_neg (by omega),
      if_pos ⟨hb1, hb2⟩, utf8tail3]
    simp only [contByteB, Bool.and_eq_true, decide_eq_true_eq]
    exact ⟨⟨⟨⟨⟨hc1, hc2⟩, hc3⟩, hf0⟩, hf4⟩, ih⟩

theorem utf8_append {a b : List Nat} (ha : Utf8 a) (hb : Utf8 b) :
    Utf8 (a ++ b) := by
  induction ha with
  | nil => exact hb
  | one x l h _ ih => exact Utf8.one _ _ h ih
  | two x c l h1 h2 hc _ ih => exact Utf8.two _ _ _ h1 h2 hc ih
  | three x c1 c2 l h1 h2 hc1 hc2 he0 hed _ ih =>
    exact Utf8.three _ _ _ _ h1 h2 hc1 hc2 he0 hed ih
  | four x c1 c2 c3 l h1 h2 hc1 hc2 hc3 hf0 hf4 _ ih =>
    exact Utf8.four _ _ _ _ _ h1 h2 hc1 hc2 hc3 hf0 hf4 ih

theorem utf8_of_ascii {l : List Nat} (h : ∀ b ∈ l, b < 128) : Utf8 l := by
  induction l with
  | nil => exact Utf8.nil
  | cons b rest ih =>
    exact Utf8.one _ _ (h b (by simp)) (ih fun x hx => h x (by simp [hx]))

theorem escapeByteSpec_ascii {b : Nat} (h : b < 128) :
    ∀ x ∈ escapeByteSpec b, x < 128 := by
  unfold escapeByteSpec
  split_ifs <;> intro x hx <;> simp at hx <;> omega

theorem escapeByteSpec_high {b : Nat} (h : 128 ≤ b) : escapeByteSpec b = [b] := by
  unfold escapeByteSpec
  split_ifs <;> first | rfl | (exfalso; omega)

theorem normalizeByte_lt_128 {b : Nat} (h : b < 128) : normalizeByte b < 128 := by
  unfold normalizeByte
  split_ifs <;> omega

theorem normalizeByte_high {b : Nat} (h : 128 ≤ b) : normalizeByte b = b := by
  unfold normalizeByte
  split_ifs <;> omega

/-- Escaping a valid UTF-8 string yields valid UTF-8: only standalone
ASCII units are replaced, and only by ASCII entity strings. -/
theorem utf8_escapeSpec {s : List Nat} (h : Utf8 s) : Utf8 (escapeSpec s) := by
  induction h with
  | nil => exact Utf8.nil
  | one b l hb _ ih =>
    have e : escapeSpec (b :: l) = escapeByteSpec b ++ escapeSpec l := by
      simp [escapeSpec]
    rw [e]
    exact utf8_append (utf8_of_ascii (escapeByteSpec_ascii hb)) ih
  | two b c l hb1 hb2 hc _ ih =>
    have e : escapeSpec (b :: c :: l) = b :: c :: escapeSpec l := by
      simp [escapeSpec, escapeByteSpec_high (show 128 ≤ b by omega),
        escapeByteSpec_high hc.1]
    rw [e]
    exact Utf8.two _ _ _ hb1 hb2 hc ih
  | three b c1 c2 l hb1 hb2 hc1 hc2 he0 hed _ ih =>
    have e : escapeSpec (b :: c1 :: c2 :: l) = b :: c1 :: c2 :: escapeSpec l := by
      simp [escapeSpec, escapeByteSpec_high (show 128 ≤ b by omega),
        escapeByteSpec_high hc1.1, escapeByteSpec_high hc2.1]
    rw [e]
    exact Utf8.three _ _ _ _ hb1 hb2 hc1 hc2 he0 hed ih
  | four b c1 c2 c3 l hb1 hb2 hc1 hc2 hc3 hf0 hf4 _ ih =>
    have e : escapeSpec (b :: c1 :: c2 :: c3 :: l)
        = b :: c1 :: c2 :: c3 :: escapeSpec l := by
      simp [escapeSpec, escapeByteSpec_high (show 128 ≤ b by omega),
        escapeByteSpec_high hc1.1, escapeByteSpec_high hc2.1,
        escapeByteSpec_high hc3.1]
    rw [e]
    exact Utf8.four _ _ _ _ _ hb1 hb2 hc1 hc2 hc3 hf0 hf4 ih

/-- Normalizing a valid UTF-8 name yields valid UTF-8: the byte map fixes
everything outside ASCII and stays inside ASCII on ASCII. -/
theorem utf8_normalizeSpec {s : List Nat} (h : Utf8 s) :
    Utf8 (normalizeSpec s) := by
  induction h with
  | nil => exact Utf8.nil
  | one b l hb _ ih =>
    simp only [normalizeSpec, List.map_cons]
    exact Utf8.one _ _ (normalizeByte_lt_128 hb) ih
  | two b c l hb1 hb2 hc _ ih =>
    simp only [normalizeSpec, List.map_cons]
    rw [normalizeByte_high (show 128 ≤ b by omega), normalizeByte_high hc.1]
    exact Utf8.two _ _ _ hb1 hb2 hc ih
  | three b c1 c2 l hb1 hb2 hc1 hc2 he0 hed _ ih =>
    simp only [normalizeSpec, List.map_cons]
    rw [normalizeByte_high (show 128 ≤ b by omega), normalizeByte_high hc1.1,
      normalizeByte_high hc2.1]
    exact Utf8.three _ _ _ _ hb1 hb2 hc1 hc2 he0 hed ih
  | four b c1 c2 c3 l hb1 hb2 hc1 hc2 hc3 hf0 hf4 _ ih =>
    simp only [normalizeSpec, List.map_cons]
    rw [normalizeByte_high (show 128 ≤ b by omega), normalizeByte_high hc1.1,
      normalizeByte_high hc2.1, normalizeByte_high hc3.1]
    exact Utf8.four _ _ _ _ _ hb1 hb2 hc1 hc2 hc3 hf0 hf4 ih

/-! ### Valid inputs give a valid rendered buffer -/

/-- The inputs of one attribute-phase call are valid text (Rust `&str`). -/
def attrOpUtf8 : AttrOp → Prop
  | .attr k v => Utf8 k ∧ Utf8 v
  | .flag k => Utf8 k

mutual

/-- All strings captured in a build script are valid text. -/
def fragUtf8 : Frag → Prop
  | .text s => Utf8 s
  | .raw s => Utf8 s
  | .node tag attrs kids =>
      Utf8 tag ∧ (∀ a ∈ attrs, attrOpUtf8 a) ∧ fragsUtf8 kids
  | .vnode tag attrs => Utf8 tag ∧ ∀ a ∈ attrs, attrOpUtf8 a

def fragsUtf8 : Frags → Prop
  | .nil => True
  | .cons f fs => fragUtf8 f ∧ fragsUtf8 fs

end

theorem utf8_attrBytes {a : AttrOp} (h : attrOpUtf8 a) : Utf8 (attrBytes a) := by
  cases a with
  | attr k v =>
    obtain ⟨hk, hv⟩ := h
    simp only [attrBytes]
    exact utf8_append (utf8_append (utf8_append (utf8_append
      (utf8_of_ascii (by decide)) (utf8_normalizeSpec hk))
      (utf8_of_ascii (by decide))) (utf8_escapeSpec hv))
      (utf8_of_ascii (by decide))
  | flag k =>
    simp only [attrBytes]
    exact utf8_append (utf8_of_ascii (by decide)) (utf8_normalizeSpec h)

theorem utf8_attrsBytes {l : List AttrOp} (h : ∀ a ∈ l, attrOpUtf8 a) :
    Utf8 (attrsBytes l) := by
  induction l with
  | nil => exact Utf8.nil
  | cons a rest ih =>
    simp only [attrsBytes]
    exact utf8_append (utf8_attrBytes (h a (by simp)))
      (ih fun x hx => h x (by simp [hx]))

mutual

theorem utf8_fragBytes (f : Frag) (h : fragUtf8 f) : Utf8 (fragBytes f) := by
  cases f with
  | text s => exact utf8_escapeSpec h
  | raw s => exact h
  | node tag attrs kids =>
    obtain ⟨htag, hattrs, hkids⟩ := h
    simp only [fragBytes]
    exact utf8_append (utf8_append (utf8_append (utf8_append (utf8_append
      (utf8_append (utf8_append (utf8_of_ascii (by decide)) htag)
      (utf8_attrsBytes hattrs)) (utf8_of_ascii (by decide)))
      (utf8_fragsBytes kids hkids)) (utf8_of_ascii (by decide))) htag)
      (utf8_of_ascii (by decide))
  | vnode tag attrs =>
    obtain ⟨htag, hattrs⟩ := h
    simp only [fragBytes]
    exact utf8_append (utf8_append (utf8_append (utf8_of_ascii (by decide))
      htag) (utf8_attrsBytes hattrs)) (utf8_of_ascii (by decide))

theorem utf8_fragsBytes (fs : Frags) (h : fragsUtf8 fs) :
    Utf8 (fragsBytes fs) := by
  cases fs with
  | nil => exact Utf8.nil
  | cons f fs' =>
    simp only [fragsBytes]
    exact utf8_append (utf8_fragBytes f h.1) (utf8_fragsBytes fs' h.2)

end

/-! ## Render composition and `children` closed form -/

/-- `render_into` and `render` are the same serialization at two call
sites: rendering into a buffer appends exactly the standalone render. -/
theorem render_into_eq {s : NState} (n : Node s) (buf : List Nat) :
    n.render_into buf = buf ++ n.renderB := by
  cases s <;>
    simp [Node.render_into, Node.renderB, Node.render_into_o,
      Node.render_into_c, Node.render_into_v, Node.render_o, Node.render_c,
      Node.render_v, Node.close, List.append_assoc]

/-- Each node's buffer is a prefix of its own final render. -/
theorem buf_isPre_renderB {s : NState} (n : Node s) :
    n.buf <+: n.renderB := by
  cases s <;>
    · simp only [Node.renderB, Node.render_o, Node.render_c, Node.render_v,
        Node.close, List.append_assoc]
      exact List.prefix_append _ _

/-- Closed form of `children`: the buffer gains the renderings of the
mapped items flattened in sequence order. -/
theorem children_eq {α : Type} {s : NState} (l : List α) :
    ∀ (n : Node .Content) (fn : α → Node s),
      n.children l fn = ⟨n.tag, n.buf ++ l.flatMap fun x => (fn x).renderB⟩ := by
  induction l with
  | nil => intro n fn; simp [Node.children]
  | cons x xs ih =>
    intro n fn
    simp only [Node.children]
    rw [ih]
    simp [render_into_eq, List.append_assoc]

/-! ## Reachability through the public mutating operations

One `BStep` is one public consume-and-return-self call from §6 of the
spec.  `map`/`map_when` apply an arbitrary caller-supplied function — they
are function application, so a `map` whose argument is built from the
operations below is already a composition of these steps and carries no
separate byte semantics of its own. -/

inductive BStep : (Σ s, Node s) → (Σ s, Node s) → Prop
  | attr {s : NState} [CanAddAttributes s] (n : Node s) (k v : List Nat) :
      BStep ⟨s, n⟩ ⟨s, n.attr k v⟩
  | flag {s : NState} [CanAddAttributes s] (n : Node s) (k : List Nat) :
      BStep ⟨s, n⟩ ⟨s, n.flag k⟩
  | close (n : Node .Open) : BStep ⟨.Open, n⟩ ⟨.Content, n.close⟩
  | child {s' : NState} (n : Node .Content) (c : Node s') :
      BStep ⟨.Content, n⟩ ⟨.Content, n.child c⟩
  | children {α : Type} {s' : NState} (n : Node .Content) (l : List α)
      (fn : α → Node s') :
      BStep ⟨.Content, n⟩ ⟨.Content, n.children l fn⟩
  | child_when (n : Node .Content) (condition : Bool)
      (f : Unit → Node .Content) :
      BStep ⟨.Content, n⟩ ⟨.Content, n.child_when condition f⟩
  | text (n : Node .Content) (t : List Nat) :
      BStep ⟨.Content, n⟩ ⟨.Content, n.text t⟩
  | raw (n : Node .Content) (t : List Nat) :
      BStep ⟨.Content, n⟩ ⟨.Content, n.raw t⟩
  | childO {s' : NState} (n : Node .Open) (c : Node s') :
      BStep ⟨.Open, n⟩ ⟨.Content, n.childO c⟩
  | childrenO {α : Type} {s' : NState} (n : Node .Open) (l : List α)
      (fn : α → Node s') :
      BStep ⟨.Open, n⟩ ⟨.Content, n.childrenO l fn⟩
  | child_whenO (n : Node .Open) (condition : Bool)
      (f : Unit → Node .Content) :
      BStep ⟨.Open, n⟩ ⟨.Content, n.child_whenO condition f⟩
  | textO (n : Node .Open) (t : List Nat) :
      BStep ⟨.Open, n⟩ ⟨.Content, n.textO t⟩
  | rawO (n : Node .Open) (t : List Nat) :
      BStep ⟨.Open, n⟩ ⟨.Content, n.rawO t⟩

/-- Zero or more public mutating calls. -/
def Reaches : (Σ s, Node s) → (Σ s, Node s) → Prop :=
  Relation.ReflTransGen BStep

/-- Every single public call preserves the tag and only appends bytes. -/
theorem bstep_buf {a b : Σ s, Node s} (h : BStep a b) :
    b.2.tag = a.2.tag ∧ a.2.buf <+: b.2.buf := by
  cases h with
  | attr n k v =>
    refine ⟨rfl, ?_⟩
    simp only [Node.attr, write_escaped_eq, write_normalized_eq,
      List.append_assoc]
    exact List.prefix_append _ _
  | flag n k =>
    refine ⟨rfl, ?_⟩
    simp only [Node.flag, write_normalized_eq, List.append_assoc]
    exact List.prefix_append _ _
  | close n => exact ⟨rfl, List.prefix_append _ _⟩
  | child n c =>
    refine ⟨rfl, ?_⟩
    simp only [Node.child, render_into_eq]
    exact List.prefix_append _ _
  | children n l fn =>
    refine ⟨?_, ?_⟩
    · rw [children_eq]
    · rw [children_eq]
      exact List.prefix_append _ _
  | child_when n condition f =>
    cases condition with
    | false => exact ⟨rfl, List.prefix_rfl⟩
    | true =>
      refine ⟨rfl, ?_⟩
      simp only [Node.child_when, if_true, Node.child, render_into_eq]
      exact List.prefix_append _ _
  | text n t =>
    refine ⟨rfl, ?_⟩
    simp only [Node.text, write_escaped_eq]
    exact List.prefix_append _ _
  | raw n t => exact ⟨rfl, List.prefix_append _ _⟩
  | childO n c =>
    refine ⟨rfl, ?_⟩
    simp only [Node.childO, Node.child, Node.close, render_into_eq,
      List.append_assoc]
    exact List.prefix_append _ _
  | childrenO n l fn =>
    refine ⟨?_, ?_⟩
    · simp only [Node.childrenO, children_eq, Node.close]
    · simp only [Node.childrenO, children_eq, Node.close, List.append_assoc]
      exact List.prefix_append _ _
  | child_whenO n condition f =>
    cases condition with
    | false =>
      refine ⟨rfl, ?_⟩
      simp only [Node.child_whenO, Node.child_when, Node.close, if_false,
        Bool.false_eq_true]
      exact List.prefix_append _ _
    | true =>
      refine ⟨rfl, ?_⟩
      simp only [Node.child_whenO, Node.child_when, if_true, Node.child,
        Node.close, render_into_eq, List.append_assoc]
      exact List.prefix_append _ _
  | textO n t =>
    refine ⟨rfl, ?_⟩
    simp only [Node.textO, Node.text, Node.close, write_escaped_eq,
      List.append_assoc]
    exact List.prefix_append _ _
  | rawO n t =>
    refine ⟨rfl, ?_⟩
    simp only [Node.rawO, Node.raw, Node.close, List.append_assoc]
    exact List.prefix_append _ _

/-- Over any run of public calls the tag is preserved and the buffer only
grows by appending. -/
theorem reaches_buf {a b : Σ s, Node s} (h : Reaches a b) :
    b.2.tag = a.2.tag ∧ a.2.buf <+: b.2.buf := by
  induction h with
  | refl => exact ⟨rfl, ⟨[], by simp⟩⟩
  | tail _ hstep ih =>
    obtain ⟨ht, hp⟩ := bstep_buf hstep
    exact ⟨ht.trans ih.1, ih.2.trans hp⟩

/-! ## Length facts about escaping (for the non-idempotence claim) -/

theorem escapeByteSpec_length_pos (b : Nat) : 1 ≤ (escapeByteSpec b).length := by
  unfold escapeByteSpec
  split_ifs <;> simp

theorem escapeSpec_length_ge (s : List Nat) : s.length ≤ (escapeSpec s).length := by
  induction s with
  | nil => simp [escapeSpec]
  | cons b rest ih =>
    simp only [escapeSpec, List.flatMap_cons, List.length_append,
      List.length_cons]
    have := escapeByteSpec_length_pos b
    simp only [escapeSpec] at ih
    omega

theorem amp_mem_escapeByteSpec {b : Nat} (h : isSpecialByte b = true) :
    38 ∈ escapeByteSpec b := by
  unfold isSpecialByte at h
  unfold escapeByteSpec
  split_ifs <;> simp_all

theorem escapeSpec_length_gt {t : List Nat} (h : 38 ∈ t) :
    t.length < (escapeSpec t).length := by
  induction t with
  | nil => simp at h
  | cons b rest ih =>
    simp only [escapeSpec, List.flatMap_cons, List.length_append,
      List.length_cons]
    rcases List.mem_cons.mp h with h | h
    · have hb : (escapeByteSpec b).length = 5 := by rw [← h]; rfl
      have := escapeSpec_length_ge rest
      simp only [escapeSpec] at this
      omega
    · have hb := escapeByteSpec_length_pos b
      have := ih h
      simp only [escapeSpec] at this
      omega

/-! ## Claims -/

/-- C2: for every node in Open or Void state and all byte strings `k`,
`v`, `attr(k, v)` keeps the tag and changes the buffer only by appending
exactly one space, the normalized name, `="`, the escaped value, and a
closing quote — normalization touches only the name, escaping only the
value. -/
theorem c2_attr_appends {s : NState} [CanAddAttributes s] (n : Node s)
    (k v : List Nat) :
    (n.attr k v).tag = n.tag ∧
      (n.attr k v).buf
        = n.buf ++ [32] ++ normalizeSpec k ++ [61, 34] ++ escapeSpec v ++ [34] := by
  refine ⟨rfl, ?_⟩
  simp [Node.attr, write_escaped_eq, write_normalized_eq, List.append_assoc]

/-- Witness for C2 at a concrete Open node: `attr("B", "&")` on `<a>`. -/
theorem c2_attr_appends_witness :
    ((Node.new [97]).attr [66] [38]).tag = (Node.new [97]).tag ∧
      ((Node.new [97]).attr [66] [38]).buf
        = (Node.new [97]).buf ++ [32] ++ normalizeSpec [66] ++ [61, 34] ++
            escapeSpec [38] ++ [34] :=
  c2_attr_appends (Node.new [97]) [66] [38]

/-- C3: the escaper appends exactly the pointwise substitution of its
input — `&`→`&amp;`, `<`→`&lt;`, `>`→`&gt;`, `"`→`&quot;`, `'`→`&#39;`,
every other byte (including all non-ASCII bytes) passed through
unmodified — its output never contains a literal `<`, `>`, `"`, or `'`,
and on input free of the five special characters the output is
byte-for-byte the input. -/
theorem c3_escape_pointwise :
    (∀ dest s, write_escaped dest s = dest ++ escapeSpec s) ∧
      (∀ s, escapeSpec s = s.flatMap escapeByteSpec) ∧
      (escapeByteSpec 38 = [38, 97, 109, 112, 59] ∧
        escapeByteSpec 60 = [38, 108, 116, 59] ∧
        escapeByteSpec 62 = [38, 103, 116, 59] ∧
        escapeByteSpec 34 = [38, 113, 117, 111, 116, 59] ∧
        escapeByteSpec 39 = [38, 35, 51, 57, 59]) ∧
      (∀ b, isSpecialByte b = false → escapeByteSpec b = [b]) ∧
      (∀ s b, b ∈ escapeSpec s → b ≠ 60 ∧ b ≠ 62 ∧ b ≠ 34 ∧ b ≠ 39) ∧
      (∀ dest s, (∀ b ∈ s, isSpecialByte b = false) →
        write_escaped dest s = dest ++ s) := by
  refine ⟨write_escaped_eq, fun s => rfl, by decide,
    fun b h => escapeByteSpec_of_not_special h,
    fun s b h => escapeSpec_no_reserved h, fun dest s h => ?_⟩
  rw [write_escaped_eq, escapeSpec_id_of_no_special h]

/-- Witness for C3 on a concrete escape-free string: `"hi"` passes
through byte-for-byte. -/
theorem c3_escape_pointwise_witness :
    write_escaped [] [104, 105] = [] ++ [104, 105] :=
  c3_escape_pointwise.2.2.2.2.2 [] [104, 105] (by decide)

/-- C4 (counterexample): at `s = "a"` (no escapable characters) the
escaper is a fixed point, so "escape(escape(s)) differs from escape(s)
for every s" is false as stated. -/
theorem c4_counterexample :
    write_escaped [] (write_escaped [] [97]) = write_escaped [] [97] := by
  decide

/-- C4 (amended): for every string containing at least one escapable
character, `escape(escape(s))` differs from `escape(s)` — escaping is
single-pass and non-recursive, so the ampersands of the produced entities
are re-escaped by the second pass. -/
theorem c4_escape_not_idempotent {s : List Nat}
    (h : ∃ b ∈ s, isSpecialByte b = true) :
    write_escaped [] (write_escaped [] s) ≠ write_escaped [] s := by
  rw [write_escaped_eq, write_escaped_eq]
  simp only [List.nil_append]
  intro heq
  obtain ⟨b, hb, hsp⟩ := h
  have hamp : 38 ∈ escapeSpec s := by
    simp only [escapeSpec, List.mem_flatMap]
    exact ⟨b, hb, amp_mem_escapeByteSpec hsp⟩
  have hlt := escapeSpec_length_gt hamp
  rw [heq] at hlt
  omega

/-- Witness for C4 (amended) at `s = "<"`. -/
theorem c4_escape_not_idempotent_witness :
    write_escaped [] (write_escaped [] [60]) ≠ write_escaped [] [60] :=
  c4_escape_not_idempotent ⟨60, by decide, by decide⟩

/-- C6: name normalization is the pointwise byte map (lowercasing ASCII
uppercase, underscore to hyphen, all else fixed), it is idempotent, its
output never contains an ASCII uppercase byte or an underscore, it
preserves length, and it acts position-by-position, fixing every byte
that is not uppercase or underscore. -/
theorem c6_normalize_fixed :
    (∀ dest k, write_normalized dest k = dest ++ normalizeSpec k) ∧
      (∀ k, normalizeSpec (normalizeSpec k) = normalizeSpec k) ∧
      (∀ k b, b ∈ normalizeSpec k → ¬(65 ≤ b ∧ b ≤ 90) ∧ b ≠ 95) ∧
      (∀ k, (normalizeSpec k).length = k.length) ∧
      (∀ (k : List Nat) (i : Nat),
        (normalizeSpec k)[i]? = (k[i]?).map normalizeByte) ∧
      (∀ b, ¬(65 ≤ b ∧ b ≤ 90) → b ≠ 95 → normalizeByte b = b) := by
  have hfix : ∀ b, normalizeByte (normalizeByte b) = normalizeByte b := by
    intro b
    unfold normalizeByte
    split_ifs <;> omega
  have hfb : ∀ b, ¬(65 ≤ normalizeByte b ∧ normalizeByte b ≤ 90) ∧
      normalizeByte b ≠ 95 := by
    intro b
    unfold normalizeByte
    split_ifs <;> omega
  refine ⟨write_normalized_eq, fun k => ?_, fun k b hb => ?_, fun k => by
    simp [normalizeSpec], fun k i => by simp [normalizeSpec], fun b h1 h2 => ?_⟩
  · simp only [normalizeSpec, List.map_map]
    exact List.map_congr_left fun b _ => hfix b
  · simp only [normalizeSpec, List.mem_map] at hb
    obtain ⟨c, _, rfl⟩ := hb
    exact hfb c
  · unfold normalizeByte
    split_ifs
    omega

/-- Witness for C6 (the pass-through conjunct, at the plain byte `a`). -/
theorem c6_normalize_fixed_witness : normalizeByte 97 = 97 :=
  c6_normalize_fixed.2.2.2.2.2 97 (by decide) (by decide)

/-- C8: `children(l, fn)` keeps the tag and appends the renderings of
`fn` applied to each item, contiguously, in the sequence order, with
nothing inserted, no reordering and no deduplication; in particular for
`[a, b, c]` the buffer gains `render (fn a)`, then `render (fn b)`, then
`render (fn c)`. -/
theorem c8_children_order {α : Type} {s : NState} (n : Node .Content)
    (l : List α) (fn : α → Node s) :
    (n.children l fn).tag = n.tag ∧
      (n.children l fn).buf = n.buf ++ l.flatMap (fun x => (fn x).renderB) ∧
      ∀ a b c : α, (n.children [a, b, c] fn).buf
        = n.buf ++ (fn a).renderB ++ (fn b).renderB ++ (fn c).renderB := by
  refine ⟨?_, ?_, fun a b c => ?_⟩
  · rw [children_eq]
  · rw [children_eq]
  · rw [children_eq]
    simp [List.append_assoc]

/-- C10: tag names are emitted verbatim — no validation, normalization,
or escaping: the exact bytes passed to `new` / `new_self_closing` appear
unchanged in the opening tag, and again in the close tag of every
non-void render, whatever attributes and children were added. -/
theorem c10_tag_verbatim (tag : List Nat) :
    (Node.new tag).buf = [60] ++ tag ∧
      (Node.new_self_closing tag).buf = [60] ++ tag ∧
      (Node.new tag).close.render_c
        = [60] ++ tag ++ [62] ++ ([60, 47] ++ tag ++ [62]) ∧
      (∀ attrs kids, (buildElem tag attrs kids).render_c
        = [60] ++ tag ++ attrsBytes attrs ++ [62] ++ fragsBytes kids ++
            [60, 47] ++ tag ++ [62]) ∧
      (∀ attrs, (buildVoid tag attrs).render_v
        = [60] ++ tag ++ attrsBytes attrs ++ [32, 47, 62]) := by
  refine ⟨by simp [Node.new, Node.with_buffer], rfl, ?_, fun attrs kids => ?_,
    fun attrs => ?_⟩
  · simp [Node.new, Node.with_buffer, Node.close, Node.render_c,
      List.append_assoc]
  · rw [buildElem_render]
    simp [fragBytes, List.append_assoc]
  · rw [buildVoid_render]
    simp [fragBytes, List.append_assoc]

/-- C1 (counterexample): the tree `new_self_closing("img").flag("></img>")`
is built exclusively through the public contract, yet its rendered text
`<img ></img> />` contains the close tag `</img>` (bytes
`[60,47,105,109,103,62]`) for the void element, exhibited here by an
explicit split of the output. -/
theorem c1_counterexample :
    ((Node.new_self_closing [105, 109, 103]).flag
        [62, 60, 47, 105, 109, 103, 62]).render_v
      = [60, 105, 109, 103, 32, 62] ++ ([60, 47] ++ [105, 109, 103] ++ [62]) ++
          [32, 47, 62] := by
  decide

/-- C1 (amended): for every tree built through the public contract
(constructors, attr/flag, child/children/child_when, text, close, render)
whose tag names are nonempty and free of markup-delimiter bytes and whose
attribute/flag names contain no angle brackets, the rendered text lies in
the balanced-tag grammar `Wf` — every opened non-void tag closed by
exactly one matching close tag immediately wrapping its children's text —
and every void element's output ends with the self-closing suffix and
contains no close tag for it. -/
theorem c1_wellformed :
    (∀ tag attrs kids, fragOk (.node tag attrs kids) = true →
      Wf ((buildElem tag attrs kids).render_c)) ∧
      (∀ tag attrs, TagNameOk tag = true → attrOpsOk attrs = true →
        Wf ((buildVoid tag attrs).render_v) ∧
          (∃ p, (buildVoid tag attrs).render_v = p ++ [32, 47, 62]) ∧
          ¬ (([60, 47] ++ tag ++ [62]) <:+: (buildVoid tag attrs).render_v)) := by
  constructor
  · intro tag attrs kids h
    rw [buildElem_render]
    exact wf_fragBytes _ h
  · intro tag attrs htag hattrs
    refine ⟨?_, ⟨(buildVoid tag attrs).buf, rfl⟩,
      buildVoid_no_closeTag htag hattrs⟩
    rw [buildVoid_render]
    exact wf_fragBytes _ (by simp [fragOk, htag, hattrs])

/-- Witness for C1 (amended) on concrete trees: `<div id="x"></div>` and
`<img src="/x" />`. -/
theorem c1_wellformed_witness :
    Wf ((buildElem [100, 105, 118] [AttrOp.attr [105, 100] [120]]
      Frags.nil).render_c) ∧
      Wf ((buildVoid [105, 109, 103]
        [AttrOp.attr [115, 114, 99] [47, 120]]).render_v) :=
  ⟨c1_wellformed.1 [100, 105, 118] [AttrOp.attr [105, 100] [120]] Frags.nil
      (by decide),
    (c1_wellformed.2 [105, 109, 103] [AttrOp.attr [115, 114, 99] [47, 120]]
      (by decide) (by decide)).1⟩

/-- C5 (counterexample): `html()` is built through the public contract
(`with_buffer` with the doctype prefix), yet its buffer
`<!DOCTYPE html><html` does not start with `<` immediately followed by
the tag name `html`. -/
theorem c5_counterexample : ¬ (([60] ++ htmlTag) <+: Lira.html.buf) := by
  decide

/-- C5 (amended): a node constructed by `with_buffer(tag, prefix)` keeps
its tag and a buffer starting with `prefix ++ < ++ tag` at every
reachable step (for `new` the prefix is empty, giving "`<` followed by
the tag name"; same for `new_self_closing`), and all public operations
only append: every reachable buffer is a prefix of each later buffer and
of the final rendered output. -/
theorem c5_buffer_invariant :
    (∀ (tag pre : List Nat) (s : NState) (m : Node s),
      Reaches ⟨.Open, Node.with_buffer tag pre⟩ ⟨s, m⟩ →
        m.tag = tag ∧ (pre ++ [60] ++ tag) <+: m.buf) ∧
      (∀ (tag : List Nat) (s : NState) (m : Node s),
        Reaches ⟨.Void, Node.new_self_closing tag⟩ ⟨s, m⟩ →
          m.tag = tag ∧ ([60] ++ tag) <+: m.buf) ∧
      (∀ a b, Reaches a b →
        a.2.buf <+: b.2.buf ∧ a.2.buf <+: Node.renderB b.2) := by
  refine ⟨fun tag pre s m h => ?_, fun tag s m h => ?_, fun a b h => ?_⟩
  · obtain ⟨ht, hp⟩ := reaches_buf h
    exact ⟨ht, hp⟩
  · obtain ⟨ht, hp⟩ := reaches_buf h
    refine ⟨ht, ?_⟩
    simpa [Node.new_self_closing] using hp
  · obtain ⟨_, hp⟩ := reaches_buf h
    exact ⟨hp, hp.trans (buf_isPre_renderB b.2)⟩

/-- Witness for C5 (amended): the freshly constructed
`with_buffer("a", "p")` node itself (reachable in zero steps). -/
theorem c5_buffer_invariant_witness :
    (Node.with_buffer [97] [112]).tag = [97] ∧
      ([112] ++ [60] ++ [97]) <+: (Node.with_buffer [97] [112]).buf :=
  c5_buffer_invariant.1 [97] [112] .Open (Node.with_buffer [97] [112])
    Relation.ReflTransGen.refl

/-- C7 (counterexample): the Void-state node
`new_self_closing("br").flag("></br>")` renders to `<br ></br> />`,
which does contain the close tag `</br>` for the element, exhibited by an
explicit split of the output. -/
theorem c7_counterexample :
    ((Node.new_self_closing [98, 114]).flag [62, 60, 47, 98, 114, 62]).render_v
      = [60, 98, 114, 32, 62] ++ ([60, 47] ++ [98, 114] ++ [62]) ++
          [32, 47, 62] := by
  decide

/-- C7 (amended): for every Void-state node, `render` appends exactly the
three bytes space, slash, close-angle to the accumulated start tag and
returns the result; and when the tag name is usable and the attribute and
flag names contain no angle brackets, the output contains no close tag
for the element. -/
theorem c7_void_render :
    (∀ n : Node .Void, n.render_v = n.buf ++ [32, 47, 62]) ∧
      (∀ tag attrs, TagNameOk tag = true → attrOpsOk attrs = true →
        ¬ (([60, 47] ++ tag ++ [62]) <:+: (buildVoid tag attrs).render_v)) :=
  ⟨fun _ => rfl, fun _ _ htag hattrs => buildVoid_no_closeTag htag hattrs⟩

/-- Witness for C7 (amended) at the bare `<br />` element. -/
theorem c7_void_render_witness :
    ¬ (([60, 47] ++ [98, 114] ++ [62]) <:+: (buildVoid [98, 114] []).render_v) :=
  c7_void_render.2 [98, 114] [] (by decide) (by decide)

/-- C9: for every tree built through the public contract whose captured
strings are all valid text (valid UTF-8, as Rust `&str` guarantees), the
final byte buffer is valid UTF-8, so the string materialization returns
the buffer and the panic branch of `render` is unreachable. -/
theorem c9_render_no_panic :
    (∀ tag attrs kids, fragUtf8 (.node tag attrs kids) →
      string_from_utf8 ((buildElem tag attrs kids).render_c)
        = some ((buildElem tag attrs kids).render_c)) ∧
      (∀ tag attrs, fragUtf8 (.vnode tag attrs) →
        string_from_utf8 ((buildVoid tag attrs).render_v)
          = some ((buildVoid tag attrs).render_v)) := by
  constructor
  · intro tag attrs kids h
    rw [buildElem_render]
    unfold string_from_utf8
    rw [if_pos (utf8valid_of_utf8 (utf8_fragBytes _ h))]
  · intro tag attrs h
    rw [buildVoid_render]
    unfold string_from_utf8
    rw [if_pos (utf8valid_of_utf8 (utf8_fragBytes _ h))]

/-- Witness for C9 on the concrete tree `<a></a>`. -/
theorem c9_render_no_panic_witness :
    string_from_utf8 ((buildElem [97] [] Frags.nil).render_c)
      = some ((buildElem [97] [] Frags.nil).render_c) :=
  c9_render_no_panic.1 [97] [] Frags.nil (by
    simp only [fragUtf8, fragsUtf8]
    exact ⟨utf8_of_ascii (by decide), by simp, trivial⟩)

end Lira
